import Mathlib

/-!
Verification development for the spicy stream decoder and patch engine
(src/src-tauri/src/commands/chat.rs).

The Rust source is shallowly embedded: strings are Lean `String`s, byte
sequences are `List Nat` (each < 256), the document backing store is a map
from path to content, and the per-request pipeline state is an explicit
record threaded through the line-processing step.  The model works at the
granularity of complete protocol lines: the source reassembles chunks into
lines by concatenating chunks and splitting at LF (chat.rs lines 633-637),
so a newline-terminated stream is fully described by its line list.
-/

namespace Spicy

/-- Whitespace as in Rust's char::is_whitespace (the Unicode White_Space set). -/
def rustIsWs (c : Char) : Bool :=
  c == ' ' || c == '\t' || c == '\n' || c == '\x0b' || c == '\x0c' || c == '\r' ||
  c.toNat == 0x85 || c.toNat == 0xA0 || c.toNat == 0x1680 ||
  decide (0x2000 ≤ c.toNat ∧ c.toNat ≤ 0x200A) || c.toNat == 0x2028 || c.toNat == 0x2029 ||
  c.toNat == 0x202F || c.toNat == 0x205F || c.toNat == 0x3000

/-- Rust str::trim_start. -/
def rustTrimStart (s : String) : String := String.mk (s.data.dropWhile rustIsWs)

/-- Rust str::trim_end. -/
def rustTrimEnd (s : String) : String := String.mk ((s.data.reverse.dropWhile rustIsWs).reverse)

/-- Rust str::trim. -/
def rustTrim (s : String) : String := rustTrimStart (rustTrimEnd s)

/-- One finished segment of Rust str::lines.  The accumulator holds the segment's
characters in reverse order; a CR directly before the terminating LF is stripped. -/
def linesSeg (acc : List Char) : String :=
  String.mk (if acc.head? == some '\r' then acc.tail.reverse else acc.reverse)

/-- Rust str::lines over a character list: split at LF, strip one CR directly before
each LF, and produce no empty final line after a trailing LF. -/
def strLinesAux : List Char → List Char → List String
  | acc, [] => if acc.isEmpty then [] else [String.mk acc.reverse]
  | acc, '\n' :: rest => linesSeg acc :: strLinesAux [] rest
  | acc, c :: rest => strLinesAux (c :: acc) rest

/-- Rust str::lines. -/
def strLines (s : String) : List String := strLinesAux [] s.data

/-- Helper for `stripPref`. -/
def dropPref : List Char → List Char → Option (List Char)
  | [], cs => some cs
  | _ :: _, [] => none
  | p :: ps, c :: cs => if p == c then dropPref ps cs else none

/-- Rust str::strip_prefix for a literal pattern. -/
def stripPref (p s : String) : Option String := (dropPref p.data s.data).map String.mk

/-- Helper for `findSuffix`: does `pat` occur at the head of the list? -/
def isPrefOf : List Char → List Char → Bool
  | [], _ => true
  | _ :: _, [] => false
  | p :: ps, c :: cs => p == c && isPrefOf ps cs

/-- Helper for `findSuffix`: the suffix starting at the first occurrence of `pat`. -/
def findFrom : List Char → List Char → Option (List Char)
  | pat, [] => if pat.isEmpty then some [] else none
  | pat, c :: cs => if isPrefOf pat (c :: cs) then some (c :: cs) else findFrom pat cs

/-- Rust str::find for a literal pattern, returned as the suffix of the haystack from the
first match (the source immediately slices the string at the returned index). -/
def findSuffix (pat s : String) : Option String := (findFrom pat.data s.data).map String.mk

/-- Rust str::ends_with for the LF character. -/
def endsWithLF (s : String) : Bool := s.data.getLast? == some '\n'

/-- Rust str::starts_with for a single character. -/
def startsWithChar (s : String) (c : Char) : Bool := s.data.head? == some c

/-- Model of serde_json::Value.  Integer literals in the i64/u64 range become `numI`;
any other numeric literal (fraction, exponent, out-of-range, negative zero) is an f64
in the source and is kept here as `numF` with its raw text. -/
inductive Json where
  | null : Json
  | bool (b : Bool) : Json
  | numI (n : Int) : Json
  | numF (raw : String) : Json
  | str (s : String) : Json
  | arr (elems : List Json) : Json
  | obj (fields : List (String × Json)) : Json
deriving Repr

/-- serde_json indexing `value["key"]`: null when the value is not an object or the key
is absent; with duplicate keys the parser's map keeps the last occurrence. -/
def Json.getF : Json → String → Json
  | .obj fields, k => (fields.foldl (fun acc kv => if kv.1 == k then some kv.2 else acc) none).getD Json.null
  | _, _ => Json.null

/-- serde_json Value::as_str. -/
def Json.asStr : Json → Option String
  | .str s => some s
  | _ => none

/-- serde_json Value::as_u64 (Some exactly for integer-typed numbers in u64 range). -/
def Json.asU64 : Json → Option Nat
  | .numI n => if 0 ≤ n ∧ n < 18446744073709551616 then some n.toNat else none
  | _ => none

/-- serde_json Value::as_array. -/
def Json.asArr : Json → Option (List Json)
  | .arr xs => some xs
  | _ => none

/-- JSON insignificant whitespace (RFC 8259). -/
def jsonWs (c : Char) : Bool := c == ' ' || c == '\t' || c == '\n' || c == '\r'

/-- Skip JSON whitespace. -/
def skipWs (cs : List Char) : List Char := cs.dropWhile jsonWs

/-- Hexadecimal digit value. -/
def hexVal (c : Char) : Option Nat :=
  if '0' ≤ c ∧ c ≤ '9' then some (c.toNat - '0'.toNat)
  else if 'a' ≤ c ∧ c ≤ 'f' then some (c.toNat - 'a'.toNat + 10)
  else if 'A' ≤ c ∧ c ≤ 'F' then some (c.toNat - 'A'.toNat + 10)
  else none

/-- JSON string body (after the opening quote): characters until the closing quote,
with escape sequences, surrogate-pair \uXXXX escapes, and a hard error on lone
surrogates and unescaped control characters, as in serde_json. -/
def parseStrBody : List Char → Option (List Char × List Char)
  | [] => none
  | c :: rest =>
    if c == '"' then some ([], rest)
    else if c == '\\' then
      match rest with
      | [] => none
      | e :: rest2 =>
        if e == '"' ∨ e == '\\' ∨ e == '/' then
          (parseStrBody rest2).map (fun p => (e :: p.1, p.2))
        else if e == 'b' then (parseStrBody rest2).map (fun p => ('\x08' :: p.1, p.2))
        else if e == 'f' then (parseStrBody rest2).map (fun p => ('\x0c' :: p.1, p.2))
        else if e == 'n' then (parseStrBody rest2).map (fun p => ('\n' :: p.1, p.2))
        else if e == 'r' then (parseStrBody rest2).map (fun p => ('\r' :: p.1, p.2))
        else if e == 't' then (parseStrBody rest2).map (fun p => ('\t' :: p.1, p.2))
        else if e == 'u' then
          match rest2 with
          | h1 :: h2 :: h3 :: h4 :: rest3 =>
            match hexVal h1, hexVal h2, hexVal h3, hexVal h4 with
            | some a, some b, some c1, some d =>
              let u := a * 4096 + b * 256 + c1 * 16 + d
              if u < 0xD800 ∨ 0xE000 ≤ u then
                (parseStrBody rest3).map (fun p => (Char.ofNat u :: p.1, p.2))
              else if u < 0xDC00 then
                match rest3 with
                | '\\' :: 'u' :: g1 :: g2 :: g3 :: g4 :: rest4 =>
                  match hexVal g1, hexVal g2, hexVal g3, hexVal g4 with
                  | some a2, some b2, some c2, some d2 =>
                    let v := a2 * 4096 + b2 * 256 + c2 * 16 + d2
                    if 0xDC00 ≤ v ∧ v < 0xE000 then
                      (parseStrBody rest4).map
                        (fun p => (Char.ofNat (0x10000 + (u - 0xD800) * 0x400 + (v - 0xDC00)) :: p.1, p.2))
                    else none
                  | _, _, _, _ => none
                | _ => none
              else none
            | _, _, _, _ => none
          | _ => none
        else none
    else if c.toNat < 0x20 then none
    else (parseStrBody rest).map (fun p => (c :: p.1, p.2))

/-- Decimal digit run. -/
def digitsSpan (cs : List Char) : List Char × List Char :=
  (cs.takeWhile (·.isDigit), cs.dropWhile (·.isDigit))

/-- Numeric value of a digit run. -/
def natOfDigits (ds : List Char) : Nat := ds.foldl (fun a c => a * 10 + (c.toNat - '0'.toNat)) 0

/-- JSON number per the RFC grammar, with serde_json's typing: integer literals in i64/u64
range are integers; everything else (fractions, exponents, overflow, negative zero) is f64. -/
def parseNum (cs0 : List Char) : Option (Json × List Char) :=
  let p := match cs0 with
    | '-' :: t => (true, t)
    | _ => (false, cs0)
  let neg := p.1
  let cs1 := p.2
  match cs1 with
  | [] => none
  | d :: t1 =>
    if ¬ d.isDigit then none else
    let q := if d == '0' then ([d], t1) else digitsSpan cs1
    let intDs := q.1
    let cs2 := q.2
    let fracRes : Option (List Char × List Char) := match cs2 with
      | '.' :: t =>
        match digitsSpan t with
        | ([], _) => none
        | (ds, r) => some ('.' :: ds, r)
      | _ => some ([], cs2)
    match fracRes with
    | none => none
    | some (fracDs, cs3) =>
      let expRes : Option (List Char × List Char) := match cs3 with
        | e :: t =>
          if e == 'e' ∨ e == 'E' then
            let s := match t with
              | '+' :: u => (['+'], u)
              | '-' :: u => (['-'], u)
              | _ => (([] : List Char), t)
            match digitsSpan s.2 with
            | ([], _) => none
            | (ds, r) => some (e :: (s.1 ++ ds), r)
          else some ([], cs3)
        | [] => some ([], [])
      match expRes with
      | none => none
      | some (expDs, rest) =>
        let raw := String.mk ((if neg then ['-'] else []) ++ intDs ++ fracDs ++ expDs)
        if fracDs.isEmpty && expDs.isEmpty then
          let n := natOfDigits intDs
          if neg then
            if n = 0 then some (Json.numF raw, rest)
            else if n ≤ 9223372036854775808 then some (Json.numI (-(Int.ofNat n)), rest)
            else some (Json.numF raw, rest)
          else
            if n < 18446744073709551616 then some (Json.numI (Int.ofNat n), rest)
            else some (Json.numF raw, rest)
        else some (Json.numF raw, rest)

mutual

/-- JSON value parser (fuel-indexed; the fuel only bounds nesting of the grammar and is
always sufficient at `length + 2`). -/
def parseVal : Nat → List Char → Option (Json × List Char)
  | 0, _ => none
  | fuel + 1, cs =>
    match skipWs cs with
    | [] => none
    | c :: rest =>
      if c == 'n' then
        match rest with
        | 'u' :: 'l' :: 'l' :: r => some (Json.null, r)
        | _ => none
      else if c == 't' then
        match rest with
        | 'r' :: 'u' :: 'e' :: r => some (Json.bool true, r)
        | _ => none
      else if c == 'f' then
        match rest with
        | 'a' :: 'l' :: 's' :: 'e' :: r => some (Json.bool false, r)
        | _ => none
      else if c == '"' then (parseStrBody rest).map (fun p => (Json.str (String.mk p.1), p.2))
      else if c == '[' then
        match skipWs rest with
        | ']' :: r => some (Json.arr [], r)
        | cs2 => parseArrLoop fuel cs2 []
      else if c == '\x7b' then
        match skipWs rest with
        | '\x7d' :: r => some (Json.obj [], r)
        | cs2 => parseObjLoop fuel cs2 []
      else if c == '-' ∨ c.isDigit then parseNum (c :: rest)
      else none

/-- Array elements after the opening bracket (at least one element). -/
def parseArrLoop : Nat → List Char → List Json → Option (Json × List Char)
  | 0, _, _ => none
  | fuel + 1, cs, acc =>
    match parseVal fuel cs with
    | none => none
    | some (v, r) =>
      match skipWs r with
      | ',' :: r2 => parseArrLoop fuel r2 (acc ++ [v])
      | ']' :: r2 => some (Json.arr (acc ++ [v]), r2)
      | _ => none

/-- Object members after the opening brace (at least one member). -/
def parseObjLoop : Nat → List Char → List (String × Json) → Option (Json × List Char)
  | 0, _, _ => none
  | fuel + 1, cs, acc =>
    match skipWs cs with
    | '"' :: r =>
      match parseStrBody r with
      | none => none
      | some (key, r2) =>
        match skipWs r2 with
        | ':' :: r3 =>
          match parseVal fuel r3 with
          | none => none
          | some (v, r4) =>
            match skipWs r4 with
            | ',' :: r5 => parseObjLoop fuel r5 (acc ++ [(String.mk key, v)])
            | '\x7d' :: r5 => some (Json.obj (acc ++ [(String.mk key, v)]), r5)
            | _ => none
        | _ => none
    | _ => none

end

/-- serde_json::from_str for Value: one JSON value, whole input consumed (up to whitespace). -/
def parseJson (s : String) : Option Json :=
  match parseVal (s.length + 2) s.data with
  | some (j, rest) => if (skipWs rest).isEmpty then some j else none
  | none => none

/-! ### Patch engine (chat.rs 264-302) -/

/-- An extracted edit instruction (start, end, replacement), 1-based inclusive bounds. -/
abbrev EditOp := Nat × Nat × String

/-- chat.rs 270-278: collect the edits array into (start, end, replacement) triples,
dropping entries whose fields are missing or of the wrong type. -/
def extractOps (edits : List Json) : List EditOp :=
  edits.filterMap fun e => do
    let s ← (e.getF "start").asU64
    let en ← (e.getF "end").asU64
    let r ← (e.getF "replacement").asStr
    pure (s, en, r)

/-- Stable insertion placing `x` before the first element whose start is not above it;
together with `sortDescStart` this is Rust's stable sort_by with comparator
b.0.cmp(&a.0), i.e. descending by start. -/
def insertDescStart (x : EditOp) : List EditOp → List EditOp
  | [] => [x]
  | y :: ys => if x.1 ≥ y.1 then x :: y :: ys else y :: insertDescStart x ys

/-- chat.rs 279: sort the operations by start line, descending, stably. -/
def sortDescStart : List EditOp → List EditOp
  | [] => []
  | x :: xs => insertDescStart x (sortDescStart xs)

/-- Vec::splice(a..b, new): replace the index range [a, b) of the list. -/
def spliceList (l : List String) (a b : Nat) (new : List String) : List String :=
  l.take a ++ new ++ l.drop b

/-- chat.rs 287-291: the replacement split into zero or more lines (empty replacement
deletes the range). -/
def replLines (r : String) : List String := if r == "" then [] else strLines r

/-- chat.rs 281-293: the application loop, validating each instruction against the
current line count and silently skipping invalid ones. -/
def applyOpsFold (lines : List String) (ops : List EditOp) : List String :=
  ops.foldl (fun ls op =>
    if op.1 = 0 ∨ op.2.1 = 0 ∨ ls.length < op.1 ∨ ls.length < op.2.1 ∨ op.2.1 < op.1 then ls
    else spliceList ls (op.1 - 1) op.2.1 (replLines op.2.2)) lines

/-- chat.rs 269-293: sort descending by start, then apply. -/
def applyOps (lines : List String) (ops : List EditOp) : List String :=
  applyOpsFold lines (sortDescStart ops)

/-- chat.rs 264-301 apply_edits restricted to the content transformation: decompose into
lines, extract/sort/apply the operations, rejoin with LF, and re-attach a trailing LF
when the original content had one and the rejoined text does not. -/
def applyEditsContent (content : String) (edits : List Json) : String :=
  let lines := strLines content
  let ops := sortDescStart (extractOps edits)
  let result := String.intercalate "\n" (applyOpsFold lines ops)
  if endsWithLF content && ! endsWithLF result then result ++ "\n" else result

/-- The document backing store: a map from path to text content.  read_to_string fails
exactly when the file is absent; the I/O error text is not modeled, and writes to the
store always succeed. -/
def FS := String → Option String

/-- chat.rs 264-302: read the file, apply the edit batch, write the result back.
Returns the rewritten content and the updated store. -/
def apply_edits (fs : FS) (path : String) (edits : List Json) : Except String (String × FS) :=
  match fs path with
  | none => .error "Failed to read file: not found"
  | some content =>
    let result := applyEditsContent content edits
    .ok (result, fun q => if q == path then some result else fs q)

/-! ### Outbound events and edit-response handling (chat.rs 7-28, 325-370) -/

/-- chat.rs 7-12 FileChange. -/
structure FileChange where
  component : Option String
  filename : String
  description : String
deriving Repr, DecidableEq

/-- chat.rs 14-28 StreamEvent, the outbound event protocol. -/
inductive StreamEvent where
  | thinking (content : String)
  | text (content : String)
  | done (changes : List FileChange) (explanation : Option String)
  | error (message : String)
deriving Repr, DecidableEq

/-- chat.rs 350-363: the changes array of the payload, dropping entries without a string
filename or description. -/
def extractChanges (j : Json) : List FileChange :=
  match j.asArr with
  | some changesArr =>
    changesArr.filterMap fun c => do
      let filename ← (c.getF "filename").asStr
      let description ← (c.getF "description").asStr
      pure { component := (c.getF "component").asStr, filename := filename,
             description := description }
  | none => []

/-- chat.rs 325-370 handle_edit_response: when the payload has an edits array, apply it
to the active document (when one is selected) and emit Done, or a document-I/O Error.
Returns whether the payload was handled, the events sent, and the resulting store.
The reload_ltspice GUI side effect (306-323) is external and not modeled. -/
def handle_edit_response (j : Json) (active_file : Option String) (dir : String) (fs : FS) :
    Bool × List StreamEvent × FS :=
  match (j.getF "edits").asArr with
  | none => (false, [], fs)
  | some edits =>
    let finish := fun (fs2 : FS) =>
      let explanation := ((j.getF "explanation").asStr).getD "Changes applied."
      let changes := extractChanges (j.getF "changes")
      (true, [StreamEvent.done changes (some explanation)], fs2)
    match active_file with
    | some filename =>
      match apply_edits fs (dir ++ "/" ++ filename) edits with
      | .error e => (true, [StreamEvent.error e], fs)
      | .ok (_, fs2) => finish fs2
    | none => finish fs

/-! ### Stream decoder (chat.rs 516-695) -/

/-- Per-request decoder state (chat.rs 518-521): accumulated text, done flag, suppress
flag, plus the document store touched at finalize time. -/
structure St where
  accumulated_text : String
  done_sent : Bool
  suppress_text : Bool
  fs : FS

/-- chat.rs 587-598 and 600-605 (within the message_stop branch): the embedded-JSON
fallback on the accumulated text, then the analysis-mode Done.  The analysis-mode
branch sets the done flag but does not ask the loop to stop. -/
def stopFallback (active_file : Option String) (dir : String) (st : St) :
    St × List StreamEvent × Bool :=
  match findSuffix "\x7b\"edits\"" st.accumulated_text with
  | some candidate =>
    match parseJson candidate with
    | some json_val =>
      match handle_edit_response json_val active_file dir st.fs with
      | (true, evs, fs2) => ({ st with done_sent := true, fs := fs2 }, evs, true)
      | (false, _, _) => ({ st with done_sent := true }, [StreamEvent.done [] none], false)
    | none => ({ st with done_sent := true }, [StreamEvent.done [] none], false)
  | none => ({ st with done_sent := true }, [StreamEvent.done [] none], false)

/-- chat.rs 576-606, the message_stop branch: try the accumulated text as a whole, then
fall back. -/
def stopResolve (active_file : Option String) (dir : String) (st : St) :
    St × List StreamEvent × Bool :=
  match parseJson st.accumulated_text with
  | some json_val =>
    match handle_edit_response json_val active_file dir st.fs with
    | (true, evs, fs2) => ({ st with done_sent := true, fs := fs2 }, evs, true)
    | (false, _, _) => stopFallback active_file dir st
  | none => stopFallback active_file dir st

/-- chat.rs 524-620 process_line: handle one SSE line; returns the new state, the events
emitted, and whether the outer loop should stop. -/
def process_line (line : String) (active_file : Option String) (dir : String) (st : St) :
    St × List StreamEvent × Bool :=
  match stripPref "data: " line with
  | none => (st, [], false)
  | some data =>
    if data == "[DONE]" then (st, [], false)
    else
      match parseJson data with
      | none => (st, [], false)
      | some parsed =>
        let event_type := ((parsed.getF "type").asStr).getD ""
        if event_type == "content_block_delta" then
          let delta_type := (((parsed.getF "delta").getF "type").asStr).getD ""
          if delta_type == "thinking_delta" then
            match ((parsed.getF "delta").getF "thinking").asStr with
            | some thinking => (st, [StreamEvent.thinking thinking], false)
            | none => (st, [], false)
          else if delta_type == "text_delta" then
            match ((parsed.getF "delta").getF "text").asStr with
            | some text =>
              let sup := if st.accumulated_text == "" && startsWithChar (rustTrimStart text) '\x7b'
                then true else st.suppress_text
              let evs := if ! sup then [StreamEvent.text text] else []
              let st2 := { st with accumulated_text := st.accumulated_text ++ text, suppress_text := sup }
              (st2, evs, false)
            | none => (st, [], false)
          else (st, [], false)
        else if event_type == "message_stop" then stopResolve active_file dir st
        else if event_type == "error" then
          let msg := (((parsed.getF "error").getF "message").asStr).getD "Unknown API error"
          ({ st with done_sent := true }, [StreamEvent.error msg], true)
        else (st, [], false)

/-- chat.rs 622-651, the chunk loop at line granularity: each complete line is trimmed
of trailing whitespace and processed; a true result breaks the loop.  Returns the final
state, the events emitted, and the unprocessed remainder of the stream. -/
def runLines (active_file : Option String) (dir : String) :
    St → List String → St × List StreamEvent × List String
  | st, [] => (st, [], [])
  | st, l :: ls =>
    let r := process_line (rustTrimEnd l) active_file dir st
    if r.2.2 then (r.1, r.2.1, ls)
    else
      let r2 := runLines active_file dir r.1 ls
      (r2.1, r.2.1 ++ r2.2.1, r2.2.2)

/-- chat.rs 679-687 within the end-of-stream resolution: the embedded-JSON fallback,
then the analysis-mode Done. -/
def finalizeFallback (active_file : Option String) (dir : String) (st : St) :
    St × List StreamEvent :=
  match findSuffix "\x7b\"edits\"" st.accumulated_text with
  | some candidate =>
    match parseJson candidate with
    | some json_val =>
      match handle_edit_response json_val active_file dir st.fs with
      | (true, evs, fs2) => ({ st with fs := fs2 }, evs)
      | (false, _, _) => (st, [StreamEvent.done [] none])
    | none => (st, [StreamEvent.done [] none])
  | none => (st, [StreamEvent.done [] none])

/-- chat.rs 671-693: after the stream ends without a terminal event, run the same edit
resolution on the accumulated text, else emit the analysis-mode Done. -/
def finalizeRequest (active_file : Option String) (dir : String) (st : St) :
    St × List StreamEvent :=
  if st.done_sent then (st, [])
  else
    match parseJson st.accumulated_text with
    | some json_val =>
      match handle_edit_response json_val active_file dir st.fs with
      | (true, evs, fs2) => ({ st with fs := fs2 }, evs)
      | (false, _, _) => finalizeFallback active_file dir st
    | none => finalizeFallback active_file dir st

/-- The whole per-request pipeline at line granularity (chat.rs 516-695): the line loop
followed by the end-of-stream resolution.  The flush of a partial trailing line
(654-669) is a no-op for a newline-terminated stream and is elided. -/
def runRequest (lines : List String) (active_file : Option String) (dir : String) (fs : FS) :
    St × List StreamEvent × List String :=
  let st0 : St := { accumulated_text := "", done_sent := false, suppress_text := false, fs := fs }
  let r := runLines active_file dir st0 lines
  let f := finalizeRequest active_file dir r.1
  (f.1, r.2.1 ++ f.2, r.2.2)

/-! ### The numbered context rendering (chat.rs 449-454) -/

/-- chat.rs 449-454: the 1-based line-numbered rendering of the active document supplied
as context to the remote service, one entry per line. -/
def numberedLines (content : String) : List String :=
  (strLines content).enum.map (fun p => toString (p.1 + 1) ++ "| " ++ p.2)

/-- chat.rs 449-454: the rendering joined with LF. -/
def numberedRendering (content : String) : String :=
  String.intercalate "\n" (numberedLines content)

/-! ### Comparison definitions taken from the spec's words -/

/-- Comparison executor for C6, following the spec's words: the same application loop,
but each instruction's bounds are re-validated against the original line count instead
of the current one. -/
def applyOpsOrigVal (origLen : Nat) (lines : List String) (ops : List EditOp) : List String :=
  ops.foldl (fun ls op =>
    if op.1 = 0 ∨ op.2.1 = 0 ∨ origLen < op.1 ∨ origLen < op.2.1 ∨ op.2.1 < op.1 then ls
    else spliceList ls (op.1 - 1) op.2.1 (replLines op.2.2)) lines

/-- Helper for `splitSolelyOnLF`; the accumulator is reversed. -/
def splitLFAux : List Char → List Char → List String
  | acc, [] => [String.mk acc.reverse]
  | acc, '\n' :: rest => String.mk acc.reverse :: splitLFAux [] rest
  | acc, c :: rest => splitLFAux (c :: acc) rest

/-- Comparison decomposition for C8, following the spec's words: split the text solely
at line-feed characters, with no special handling of carriage returns. -/
def splitSolelyOnLF (s : String) : List String := splitLFAux [] s.data

/-! ### Observations on streams and event lists (for the classification claims) -/

/-- The contents of the Text events of an event list, in order. -/
def textsOf (evs : List StreamEvent) : List String :=
  evs.filterMap (fun e => match e with | StreamEvent.text c => some c | _ => none)

/-- The text delta carried by one (already trimmed) SSE line, exactly as process_line
extracts it: the line is a data line, not the sentinel, its JSON parses, the type is
content_block_delta, the delta type is text_delta, and the text field is a string. -/
def deltaOfLine (line : String) : Option String :=
  match stripPref "data: " line with
  | none => none
  | some data =>
    if data == "[DONE]" then none
    else
      match parseJson data with
      | none => none
      | some parsed =>
        if ((parsed.getF "type").asStr).getD "" == "content_block_delta" then
          if (((parsed.getF "delta").getF "type").asStr).getD "" == "thinking_delta" then none
          else if (((parsed.getF "delta").getF "type").asStr).getD "" == "text_delta" then
            ((parsed.getF "delta").getF "text").asStr
          else none
        else none

/-- The text deltas of a stream of raw lines, in arrival order. -/
def textDeltas (lines : List String) : List String :=
  lines.filterMap (fun l => deltaOfLine (rustTrimEnd l))

/-- The first non-empty text delta of a stream of raw lines. -/
def firstNonEmptyDelta (lines : List String) : Option String :=
  (textDeltas lines).find? (fun d => d != "")

/-! ### Document source adapter (chat.rs 372-400) -/

/-- UTF-8 encoding of one scalar value. -/
def utf8EncodeChar (c : Char) : List Nat :=
  let n := c.toNat
  if n < 0x80 then [n]
  else if n < 0x800 then [0xC0 + n / 64, 0x80 + n % 64]
  else if n < 0x10000 then [0xE0 + n / 4096, 0x80 + (n / 64) % 64, 0x80 + n % 64]
  else [0xF0 + n / 0x40000, 0x80 + (n / 4096) % 64, 0x80 + (n / 64) % 64, 0x80 + n % 64]

/-- UTF-8 encoding of a string (how a text file with this logical content is stored). -/
def utf8Encode (s : String) : List Nat := (s.data.map utf8EncodeChar).flatten

/-- A UTF-8 continuation byte. -/
def isCont (b : Nat) : Bool := decide (0x80 ≤ b ∧ b < 0xC0)

/-- Strict UTF-8 decoding; std::fs::read_to_string succeeds exactly when this does.
Standard validation: overlong forms, surrogates, and values above U+10FFFF rejected. -/
def utf8DecodeStrict : List Nat → Option (List Char)
  | [] => some []
  | b :: rest =>
    if b < 0x80 then (utf8DecodeStrict rest).map (Char.ofNat b :: ·)
    else if b < 0xC2 then none
    else if b < 0xE0 then
      match rest with
      | b1 :: r =>
        if isCont b1 then (utf8DecodeStrict r).map (Char.ofNat ((b - 0xC0) * 64 + (b1 - 0x80)) :: ·)
        else none
      | [] => none
    else if b < 0xF0 then
      match rest with
      | b1 :: r1 =>
        match r1 with
        | b2 :: r =>
          if ((if b = 0xE0 then decide (0xA0 ≤ b1 ∧ b1 < 0xC0)
               else if b = 0xED then decide (0x80 ≤ b1 ∧ b1 < 0xA0)
               else isCont b1) && isCont b2) then
            (utf8DecodeStrict r).map
              (Char.ofNat ((b - 0xE0) * 4096 + (b1 - 0x80) * 64 + (b2 - 0x80)) :: ·)
          else none
        | [] => none
      | [] => none
    else if b < 0xF5 then
      match rest with
      | b1 :: r1 =>
        match r1 with
        | b2 :: r2 =>
          match r2 with
          | b3 :: r =>
            if ((if b = 0xF0 then decide (0x90 ≤ b1 ∧ b1 < 0xC0)
                 else if b = 0xF4 then decide (0x80 ≤ b1 ∧ b1 < 0x90)
                 else isCont b1) && isCont b2 && isCont b3) then
              (utf8DecodeStrict r).map
                (Char.ofNat ((b - 0xF0) * 0x40000 + (b1 - 0x80) * 4096 + (b2 - 0x80) * 64 + (b3 - 0x80)) :: ·)
            else none
          | [] => none
        | [] => none
      | [] => none
    else none
termination_by l => l.length
decreasing_by all_goals (simp only [List.length_cons]; omega)

/-- The Unicode replacement character. -/
def replChar : Char := '�'

/-- Lossy UTF-8 decoding (String::from_utf8_lossy): each maximal invalid subpart is
replaced by one U+FFFD (skipping 1 byte on a bad lead or bad first continuation,
2 after a valid lead + first continuation, 3 after a valid 3-byte run). -/
def utf8Lossy : List Nat → List Char
  | [] => []
  | b :: rest =>
    if b < 0x80 then Char.ofNat b :: utf8Lossy rest
    else if b < 0xC2 then replChar :: utf8Lossy rest
    else if b < 0xE0 then
      match rest with
      | b1 :: r =>
        if isCont b1 then Char.ofNat ((b - 0xC0) * 64 + (b1 - 0x80)) :: utf8Lossy r
        else replChar :: utf8Lossy (b1 :: r)
      | [] => [replChar]
    else if b < 0xF0 then
      match rest with
      | b1 :: r =>
        if (if b = 0xE0 then decide (0xA0 ≤ b1 ∧ b1 < 0xC0)
            else if b = 0xED then decide (0x80 ≤ b1 ∧ b1 < 0xA0)
            else isCont b1) then
          match r with
          | b2 :: r2 =>
            if isCont b2 then
              Char.ofNat ((b - 0xE0) * 4096 + (b1 - 0x80) * 64 + (b2 - 0x80)) :: utf8Lossy r2
            else replChar :: utf8Lossy (b2 :: r2)
          | [] => [replChar]
        else replChar :: utf8Lossy (b1 :: r)
      | [] => [replChar]
    else if b < 0xF5 then
      match rest with
      | b1 :: r =>
        if (if b = 0xF0 then decide (0x90 ≤ b1 ∧ b1 < 0xC0)
            else if b = 0xF4 then decide (0x80 ≤ b1 ∧ b1 < 0x90)
            else isCont b1) then
          match r with
          | b2 :: r2 =>
            if isCont b2 then
              match r2 with
              | b3 :: r3 =>
                if isCont b3 then
                  Char.ofNat ((b - 0xF0) * 0x40000 + (b1 - 0x80) * 4096 + (b2 - 0x80) * 64 + (b3 - 0x80))
                    :: utf8Lossy r3
                else replChar :: utf8Lossy (b3 :: r3)
              | [] => [replChar]
            else replChar :: utf8Lossy (b2 :: r2)
          | [] => [replChar]
        else replChar :: utf8Lossy (b1 :: r)
      | [] => [replChar]
    else replChar :: utf8Lossy rest
termination_by l => l.length
decreasing_by all_goals (simp only [List.length_cons]; omega)

/-- UTF-16 code units of one scalar value. -/
def utf16EncodeChar (c : Char) : List Nat :=
  let n := c.toNat
  if n < 0x10000 then [n]
  else [0xD800 + (n - 0x10000) / 0x400, 0xDC00 + (n - 0x10000) % 0x400]

/-- UTF-16LE byte serialization of a string (what follows the byte-order marker in a
UTF-16LE file holding this logical content). -/
def utf16leBytes (s : String) : List Nat :=
  ((s.data.map utf16EncodeChar).flatten).flatMap (fun u => [u % 256, u / 256])

/-- chat.rs 380-389: reassemble little-endian u16 code units from the byte tail,
dropping a trailing odd byte. -/
def leChunks : List Nat → List Nat
  | b0 :: b1 :: rest => (b0 + 256 * b1) :: leChunks rest
  | _ => []

/-- String::from_utf16_lossy: surrogate pairs recombine; unpaired surrogates become
U+FFFD. -/
def utf16Lossy : List Nat → List Char
  | [] => []
  | u :: rest =>
    if u < 0xD800 ∨ 0xE000 ≤ u then Char.ofNat u :: utf16Lossy rest
    else if u < 0xDC00 then
      match rest with
      | v :: rest2 =>
        if 0xDC00 ≤ v ∧ v < 0xE000 then
          Char.ofNat (0x10000 + (u - 0xD800) * 0x400 + (v - 0xDC00)) :: utf16Lossy rest2
        else replChar :: utf16Lossy (v :: rest2)
      | [] => [replChar]
    else replChar :: utf16Lossy rest
termination_by l => l.length
decreasing_by all_goals (simp only [List.length_cons]; omega)

/-- chat.rs 372-400: read_asc_file_content's decoding of the raw bytes of an existing
file: strict UTF-8 first; on failure, a 0xFF 0xFE byte-order marker selects UTF-16LE
with lossy substitution, else lossy UTF-8.  Total, so decoding never fails. -/
def read_asc_decode (bytes : List Nat) : String :=
  match utf8DecodeStrict bytes with
  | some cs => String.mk cs
  | none =>
    match bytes with
    | 0xFF :: 0xFE :: rest => String.mk (utf16Lossy (leChunks rest))
    | _ => String.mk (utf8Lossy bytes)

/-! ## Theorems -/

/-! ### C3: single-instruction application -/

/-- C3: applying a single in-bounds instruction (start, end, replacement) to a line
sequence replaces exactly the 1-based inclusive range [start, end] with the replacement
split into lines; an empty replacement deletes the range, and embedded line-feeds in
the replacement expand into multiple lines. -/
theorem c3_single_edit (lines : List String) (s e : Nat) (r : String)
    (h1 : 1 ≤ s) (h2 : s ≤ e) (h3 : e ≤ lines.length) :
    applyOps lines [(s, e, r)] = lines.take (s - 1) ++ replLines r ++ lines.drop e := by
  have hc : ¬((s, e, r).1 = 0 ∨ (s, e, r).2.1 = 0 ∨ lines.length < (s, e, r).1 ∨
      lines.length < (s, e, r).2.1 ∨ (s, e, r).2.1 < (s, e, r).1) := by
    simp only
    omega
  simp [applyOps, sortDescStart, insertDescStart, applyOpsFold, spliceList, hc]

/-- Witness for C3 at Scenario C of the spec: lines ["A","B","C"] with
(2, 2, "B\nB2") give ["A","B","B2","C"]. -/
theorem c3_single_edit_witness :
    applyOps ["A", "B", "C"] [(2, 2, "B\nB2")] = ["A", "B", "B2", "C"] := by
  rw [c3_single_edit ["A", "B", "C"] 2 2 "B\nB2" (by decide) (by decide) (by decide)]
  decide

/-! ### C7: invalid instructions are dropped, the rest still apply -/

/-- C7: an instruction with start = 0, end = 0, end below start, or a bound exceeding
the current line count is silently skipped by the application loop, which then applies
the remaining instructions to the unchanged line sequence; nothing fails. -/
theorem c7_invalid_dropped (lines : List String) (op : EditOp) (rest : List EditOp)
    (h : op.1 = 0 ∨ op.2.1 = 0 ∨ lines.length < op.1 ∨ lines.length < op.2.1 ∨
      op.2.1 < op.1) :
    applyOpsFold lines (op :: rest) = applyOpsFold lines rest := by
  unfold applyOpsFold
  rw [List.foldl_cons, if_pos h]

/-- Witness for C7: the out-of-range instruction (0, 1, "X") is dropped while the valid
(2, 2, "Y") in the same batch still applies. -/
theorem c7_invalid_dropped_witness :
    applyOpsFold ["A", "B", "C"] [(0, 1, "X"), (2, 2, "Y")] =
      applyOpsFold ["A", "B", "C"] [(2, 2, "Y")] ∧
    applyOpsFold ["A", "B", "C"] [(2, 2, "Y")] = ["A", "Y", "C"] :=
  ⟨c7_invalid_dropped ["A", "B", "C"] (0, 1, "X") [(2, 2, "Y")] (by decide), by decide⟩

/-! ### C4: trailing line-feed -/

/-- Appending an LF makes the string end with LF. -/
theorem endsWithLF_append_lf (s : String) : endsWithLF (s ++ "\n") = true := by
  unfold endsWithLF
  rw [String.data_append]
  have h : ("\n" : String).data = ['\n'] := rfl
  rw [h, List.getLast?_concat]
  rfl

/-- C4 counterexample: on the source "A\n\nB" (no trailing LF), deleting line 3 leaves
["A", ""], which rejoins to "A\n" — the engine's output ends with a line-feed although
the original source text did not, refuting the claimed equivalence. -/
theorem c4_trailing_lf_cex :
    endsWithLF "A\n\nB" = false ∧
    applyEditsContent "A\n\nB"
      [Json.obj [("start", Json.numI 3), ("end", Json.numI 3), ("replacement", Json.str "")]] =
      "A\n" ∧
    endsWithLF "A\n" = true := by
  refine ⟨by decide, by decide, by decide⟩

/-- C4 (amended): the text produced by the patch engine ends with a line-feed whenever
the original source text did, regardless of the edits. -/
theorem c4_trailing_lf_preserved (content : String) (edits : List Json)
    (h : endsWithLF content = true) :
    endsWithLF (applyEditsContent content edits) = true := by
  unfold applyEditsContent
  cases hres : endsWithLF
      (String.intercalate "\n" (applyOpsFold (strLines content) (sortDescStart (extractOps edits)))) with
  | false =>
    simp only [h, hres, Bool.not_false, Bool.and_self, if_true]
    exact endsWithLF_append_lf _
  | true =>
    simp only [h, hres, Bool.not_true, Bool.and_false]
    rw [if_neg (by decide)]
    exact hres

/-- Witness for C4 (amended) on a source with a trailing LF and a replacement without
one. -/
theorem c4_trailing_lf_preserved_witness :
    endsWithLF (applyEditsContent "A\nB\n"
      [Json.obj [("start", Json.numI 2), ("end", Json.numI 2), ("replacement", Json.str "X")]]) =
      true :=
  c4_trailing_lf_preserved "A\nB\n" _ (by decide)

/-! ### C1: terminal events -/

/-- C1 (code bug): a text record arriving after an analysis-mode message_stop still
produces a Text event, so the terminal Done is not last.  The analysis-mode arm of the
message_stop branch sets the done flag but hands control back to the loop without
stopping (chat.rs 600-606 and 619), and no emission point re-checks the flag. -/
theorem c1_event_after_terminal :
    (runRequest
      ["data: \x7b\"type\":\"message_stop\"\x7d",
       "data: \x7b\"type\":\"content_block_delta\",\"delta\":\x7b\"type\":\"text_delta\",\"text\":\"hi\"\x7d\x7d"]
      none "d" (fun _ => none)).2.1 =
      [StreamEvent.done [] none, StreamEvent.text "hi"] := by
  decide

/-! ### C6: order independence of a non-overlapping batch -/

/-- C6 counterexample: the in-bounds, pairwise non-overlapping instructions (1,1,"")
and (3,3,"X") on ["A","B","C"] give ["B","X"] under the engine's descending
application, but ["B","C","X"] when applied in ascending order with bounds re-validated
against the original line count, so order independence fails as claimed. -/
theorem c6_any_order_cex :
    applyOps ["A", "B", "C"] [(1, 1, ""), (3, 3, "X")] = ["B", "X"] ∧
    applyOpsOrigVal 3 ["A", "B", "C"] [(1, 1, ""), (3, 3, "X")] = ["B", "C", "X"] := by
  refine ⟨by decide, by decide⟩

/-- Every later instruction of a descending non-overlapping chain ends strictly below
the head's start. -/
theorem chain_below {op : EditOp} {rest : List EditOp}
    (hch : List.Chain' (fun a b => b.2.1 < a.1) (op :: rest))
    (hb : ∀ x ∈ rest, x.1 ≤ x.2.1) :
    ∀ x ∈ rest, x.2.1 < op.1 := by
  induction rest generalizing op with
  | nil => intro x hx; cases hx
  | cons y ys ih =>
    intro x hx
    have h1 : y.2.1 < op.1 := (List.chain'_cons.mp hch).1
    cases hx with
    | head => exact h1
    | tail _ hx2 =>
      have h2 := ih (List.chain'_cons.mp hch).2
        (fun z hz => hb z (List.mem_cons_of_mem _ hz)) x hx2
      have h3 : y.1 ≤ y.2.1 := hb y (List.mem_cons_self _ _)
      omega

/-- Inserting above a list of lower starts is a cons. -/
theorem insertDescStart_eq_cons {x : EditOp} {l : List EditOp}
    (h : ∀ y ∈ l, y.1 ≤ x.1) : insertDescStart x l = x :: l := by
  cases l with
  | nil => rfl
  | cons y ys => simp [insertDescStart, h y (List.mem_cons_self _ _)]

/-- The head of a start-descending chain bounds every element of the tail. -/
theorem chain_le_head {x : EditOp} {xs : List EditOp}
    (h : List.Chain' (fun a b : EditOp => b.1 ≤ a.1) (x :: xs)) : ∀ y ∈ xs, y.1 ≤ x.1 := by
  induction xs generalizing x with
  | nil => intro y hy; cases hy
  | cons z zs ih =>
    intro y hy
    have h1 : z.1 ≤ x.1 := (List.chain'_cons.mp h).1
    cases hy with
    | head => exact h1
    | tail _ hy2 => exact le_trans (ih (List.chain'_cons.mp h).2 y hy2) h1

/-- The engine's stable descending sort leaves a start-descending list unchanged. -/
theorem sortDescStart_sorted_id {l : List EditOp}
    (h : List.Chain' (fun a b : EditOp => b.1 ≤ a.1) l) : sortDescStart l = l := by
  induction l with
  | nil => rfl
  | cons x xs ih =>
    unfold sortDescStart
    rw [ih h.tail]
    exact insertDescStart_eq_cons (chain_le_head h)

/-- A descending non-overlapping chain of instructions with start ≤ end is descending
in starts. -/
theorem chain_start_of_chain_nonoverlap {l : List EditOp}
    (hb : ∀ x ∈ l, x.1 ≤ x.2.1)
    (hch : List.Chain' (fun a b => b.2.1 < a.1) l) :
    List.Chain' (fun a b : EditOp => b.1 ≤ a.1) l := by
  induction l with
  | nil => exact List.chain'_nil
  | cons x xs ih =>
    cases xs with
    | nil => simp
    | cons y ys =>
      rw [List.chain'_cons] at hch ⊢
      refine ⟨?_, ih (fun z hz => hb z (List.mem_cons_of_mem _ hz)) hch.2⟩
      have hy := hb y (by simp)
      omega

/-- For a descending, non-overlapping, everywhere-in-bounds batch, validation against
the current line count agrees with validation against the original line count at every
step, so the two folds coincide. -/
theorem applyOpsFold_origVal (origLen : Nat) (ops : List EditOp) :
    ∀ (ls : List String) (m : Nat),
      (∀ op ∈ ops, 1 ≤ op.1 ∧ op.1 ≤ op.2.1 ∧ op.2.1 ≤ origLen) →
      List.Chain' (fun a b => b.2.1 < a.1) ops →
      (∀ op ∈ ops, op.2.1 ≤ m) →
      m ≤ ls.length →
      applyOpsFold ls ops = applyOpsOrigVal origLen ls ops := by
  induction ops with
  | nil => intro ls m _ _ _ _; rfl
  | cons op rest ih =>
    intro ls m hb hch hm hlen
    have hop := hb op (List.mem_cons_self _ _)
    have hople : op.2.1 ≤ m := hm op (List.mem_cons_self _ _)
    have hvalid : ¬(op.1 = 0 ∨ op.2.1 = 0 ∨ ls.length < op.1 ∨ ls.length < op.2.1 ∨
        op.2.1 < op.1) := by omega
    have hvalidO : ¬(op.1 = 0 ∨ op.2.1 = 0 ∨ origLen < op.1 ∨ origLen < op.2.1 ∨
        op.2.1 < op.1) := by omega
    have step1 : applyOpsFold ls (op :: rest) =
        applyOpsFold (spliceList ls (op.1 - 1) op.2.1 (replLines op.2.2)) rest := by
      unfold applyOpsFold
      rw [List.foldl_cons, if_neg hvalid]
    have step2 : applyOpsOrigVal origLen ls (op :: rest) =
        applyOpsOrigVal origLen (spliceList ls (op.1 - 1) op.2.1 (replLines op.2.2)) rest := by
      unfold applyOpsOrigVal
      rw [List.foldl_cons, if_neg hvalidO]
    have hlt : ∀ x ∈ rest, x.2.1 < op.1 :=
      chain_below hch (fun x hx => (hb x (List.mem_cons_of_mem _ hx)).2.1)
    have hlen2 : op.1 - 1 ≤ (spliceList ls (op.1 - 1) op.2.1 (replLines op.2.2)).length := by
      simp only [spliceList, List.length_append, List.length_take, List.length_drop]
      omega
    rw [step1, step2]
    exact ih (spliceList ls (op.1 - 1) op.2.1 (replLines op.2.2)) (op.1 - 1)
      (fun x hx => hb x (List.mem_cons_of_mem _ hx)) hch.tail
      (fun x hx => Nat.le_of_lt_succ (by have := hlt x hx; omega)) hlen2

/-- C6 (amended): for a batch of pairwise non-overlapping, in-bounds instructions given
in descending start order, the engine's application — which validates each instruction
against the current line count — produces the same final line sequence as the same
descending application with bounds re-validated against the original line count (the
claimed independence from the application order itself is refuted by the
counterexample). -/
theorem c6_desc_orig_validation (lines : List String) (ops : List EditOp)
    (hb : ∀ op ∈ ops, 1 ≤ op.1 ∧ op.1 ≤ op.2.1 ∧ op.2.1 ≤ lines.length)
    (hch : List.Chain' (fun a b => b.2.1 < a.1) ops) :
    applyOps lines ops = applyOpsOrigVal lines.length lines ops := by
  unfold applyOps
  rw [sortDescStart_sorted_id (chain_start_of_chain_nonoverlap (fun x hx => (hb x hx).2.1) hch)]
  exact applyOpsFold_origVal lines.length ops lines lines.length hb hch
    (fun op h => (hb op h).2.2) le_rfl

/-- Witness for C6 (amended) on the descending batch [(3,3,"X"), (1,1,"")]. -/
theorem c6_desc_orig_validation_witness :
    applyOps ["A", "B", "C"] [(3, 3, "X"), (1, 1, "")] =
      applyOpsOrigVal 3 ["A", "B", "C"] [(3, 3, "X"), (1, 1, "")] :=
  c6_desc_orig_validation ["A", "B", "C"] [(3, 3, "X"), (1, 1, "")]
    (by decide) (List.chain'_cons.mpr ⟨by decide, List.chain'_singleton _⟩)

/-! ### C8: the numbered rendering and the patch engine agree on lines -/

/-- C8 counterexample: on "a\r\nb" the patch engine's decomposition (and equally the
numbered rendering's) strips the carriage return, so it is not the pure split at
line-feeds with no carriage-return handling that the claim describes. -/
theorem c8_lf_split_cex :
    strLines "a\r\nb" = ["a", "b"] ∧
    splitSolelyOnLF "a\r\nb" = ["a\r", "b"] ∧
    strLines "a\r\nb" ≠ splitSolelyOnLF "a\r\nb" := by
  refine ⟨by decide, by decide, by decide⟩

/-- C8 (amended): the numbered rendering and the patch engine use the same line
decomposition (split at LF, stripping one CR directly before each LF), so they have the
same line count and the i-th rendered entry is exactly the 1-based ordinal i+1, the
separator, and the i-th line the patch engine addresses. -/
theorem c8_numbering_agrees (content : String) (i : Nat) (l : String)
    (h : (strLines content)[i]? = some l) :
    (numberedLines content)[i]? = some (toString (i + 1) ++ "| " ++ l) ∧
    (numberedLines content).length = (strLines content).length := by
  constructor
  · unfold numberedLines
    rw [List.getElem?_map, List.getElem?_enum, h]
    rfl
  · simp [numberedLines]

/-- Witness for C8 (amended) at content "x\ny", line index 1. -/
theorem c8_numbering_agrees_witness :
    (numberedLines "x\ny")[1]? = some "2| y" := by
  have h := (c8_numbering_agrees "x\ny" 1 "y" (by decide)).1
  rw [h]
  rfl

/-! ### C10: no active document -/

/-- C10: with no active document selected, a payload whose edits field is an array
performs no read or write on the document store, yet terminates the request with Done
carrying the payload's changes list and its explanation, defaulting to
"Changes applied." when the payload has none. -/
theorem c10_no_active_file (j : Json) (edits : List Json) (dir : String) (fs : FS)
    (h : (j.getF "edits").asArr = some edits) :
    handle_edit_response j none dir fs =
      (true,
       [StreamEvent.done (extractChanges (j.getF "changes"))
         (some (((j.getF "explanation").asStr).getD "Changes applied."))],
       fs) := by
  unfold handle_edit_response
  rw [h]

/-- Witness for C10 on a concrete payload with an explanation, and one without. -/
theorem c10_no_active_file_witness :
    handle_edit_response (Json.obj [("edits", Json.arr []), ("explanation", Json.str "hi")])
      none "d" (fun _ => none) =
      (true, [StreamEvent.done [] (some "hi")], (fun _ => none)) := by
  rw [c10_no_active_file (Json.obj [("edits", Json.arr []), ("explanation", Json.str "hi")])
    [] "d" (fun _ => none) rfl]
  rfl

/-! ### C5: malformed structured response falls back to prose -/

/-- A payload without an edits array is not handled: no events, no store change. -/
theorem handle_edit_response_no_edits {j : Json} (h : (j.getF "edits").asArr = none)
    (af : Option String) (dir : String) (fs : FS) :
    handle_edit_response j af dir fs = (false, [], fs) := by
  unfold handle_edit_response
  rw [h]

/-- When the embedded-JSON fallback finds nothing handlable, the message_stop branch
ends in the analysis-mode Done without touching the store. -/
theorem stopFallback_prose (af : Option String) (dir : String) (st : St)
    (h : ∀ cand j, findSuffix "\x7b\"edits\"" st.accumulated_text = some cand →
      parseJson cand = some j → (j.getF "edits").asArr = none) :
    stopFallback af dir st =
      ({ st with done_sent := true }, [StreamEvent.done [] none], false) := by
  unfold stopFallback
  cases hf : findSuffix "\x7b\"edits\"" st.accumulated_text with
  | none => rfl
  | some cand =>
    dsimp only
    cases hp : parseJson cand with
    | none => rfl
    | some j =>
      dsimp only
      rw [handle_edit_response_no_edits (h cand j hf hp)]

/-- The message_stop resolution on unhandlable accumulated text. -/
theorem stopResolve_prose (af : Option String) (dir : String) (st : St)
    (h1 : ∀ j, parseJson st.accumulated_text = some j → (j.getF "edits").asArr = none)
    (h2 : ∀ cand j, findSuffix "\x7b\"edits\"" st.accumulated_text = some cand →
      parseJson cand = some j → (j.getF "edits").asArr = none) :
    stopResolve af dir st =
      ({ st with done_sent := true }, [StreamEvent.done [] none], false) := by
  unfold stopResolve
  cases hp : parseJson st.accumulated_text with
  | none => exact stopFallback_prose af dir st h2
  | some j =>
    dsimp only
    rw [handle_edit_response_no_edits (h1 j hp)]
    exact stopFallback_prose af dir st h2

/-- The end-of-stream fallback on unhandlable accumulated text. -/
theorem finalizeFallback_prose (af : Option String) (dir : String) (st : St)
    (h : ∀ cand j, findSuffix "\x7b\"edits\"" st.accumulated_text = some cand →
      parseJson cand = some j → (j.getF "edits").asArr = none) :
    finalizeFallback af dir st = (st, [StreamEvent.done [] none]) := by
  unfold finalizeFallback
  cases hf : findSuffix "\x7b\"edits\"" st.accumulated_text with
  | none => rfl
  | some cand =>
    dsimp only
    cases hp : parseJson cand with
    | none => rfl
    | some j =>
      dsimp only
      rw [handle_edit_response_no_edits (h cand j hf hp)]

/-- The end-of-stream resolution on unhandlable accumulated text. -/
theorem finalizeRequest_prose (af : Option String) (dir : String) (st : St)
    (hd : st.done_sent = false)
    (h1 : ∀ j, parseJson st.accumulated_text = some j → (j.getF "edits").asArr = none)
    (h2 : ∀ cand j, findSuffix "\x7b\"edits\"" st.accumulated_text = some cand →
      parseJson cand = some j → (j.getF "edits").asArr = none) :
    finalizeRequest af dir st = (st, [StreamEvent.done [] none]) := by
  unfold finalizeRequest
  rw [hd]
  simp only [Bool.false_eq_true, if_false]
  cases hp : parseJson st.accumulated_text with
  | none => exact finalizeFallback_prose af dir st h2
  | some j =>
    dsimp only
    rw [handle_edit_response_no_edits (h1 j hp)]
    exact finalizeFallback_prose af dir st h2

/-- C5 (amended): whenever neither the accumulated text nor the suffix starting at the
first occurrence of the edits key parses to an object with an edits array, resolution —
in the message_stop branch and the end-of-stream branch alike, whatever the suppress
mode — emits exactly Done with no changes and no explanation, and leaves the document
store untouched. -/
theorem c5_prose_fallback (acc : String) (af : Option String) (dir : String) (fs : FS)
    (sup : Bool)
    (h1 : ∀ j, parseJson acc = some j → (j.getF "edits").asArr = none)
    (h2 : ∀ cand j, findSuffix "\x7b\"edits\"" acc = some cand →
      parseJson cand = some j → (j.getF "edits").asArr = none) :
    stopResolve af dir
        { accumulated_text := acc, done_sent := false, suppress_text := sup, fs := fs } =
      ({ accumulated_text := acc, done_sent := true, suppress_text := sup, fs := fs },
       [StreamEvent.done [] none], false) ∧
    finalizeRequest af dir
        { accumulated_text := acc, done_sent := false, suppress_text := sup, fs := fs } =
      ({ accumulated_text := acc, done_sent := false, suppress_text := sup, fs := fs },
       [StreamEvent.done [] none]) :=
  ⟨stopResolve_prose af dir _ h1 h2, finalizeRequest_prose af dir _ rfl h1 h2⟩

/-- Witness for C5 (amended) with accumulated text "hello", a selected document, and
suppress mode on. -/
theorem c5_prose_fallback_witness :
    stopResolve (some "f.asc") "d"
      { accumulated_text := "hello", done_sent := false, suppress_text := true,
        fs := fun _ => none } =
      ({ accumulated_text := "hello", done_sent := true, suppress_text := true,
         fs := fun _ => none }, [StreamEvent.done [] none], false) :=
  (c5_prose_fallback "hello" (some "f.asc") "d" (fun _ => none) true
    (fun j hj => by
      rw [show parseJson "hello" = none from rfl] at hj
      exact Option.noConfusion hj)
    (fun cand j hc _ => by
      rw [show findSuffix "\x7b\"edits\"" "hello" = none from rfl] at hc
      exact Option.noConfusion hc)).1

/-- C5 counterexample: accumulated text that fails to parse as a structured edit batch
(leading garbage before the JSON) nevertheless triggers the embedded-JSON fallback: the
selected document is rewritten from "A\n" to "B\n" and Done carries the default
explanation — not the claimed Done with no changes, no explanation, and no write. -/
theorem c5_prose_fallback_cex :
    (parseJson "x\x7b\"edits\":[\x7b\"start\":1,\"end\":1,\"replacement\":\"B\"\x7d]\x7d").isNone
      = true ∧
    (finalizeRequest (some "f.asc") "d"
      { accumulated_text := "x\x7b\"edits\":[\x7b\"start\":1,\"end\":1,\"replacement\":\"B\"\x7d]\x7d",
        done_sent := false, suppress_text := true,
        fs := fun p => if p == "d/f.asc" then some "A\n" else none }).2 =
      [StreamEvent.done [] (some "Changes applied.")] ∧
    (finalizeRequest (some "f.asc") "d"
      { accumulated_text := "x\x7b\"edits\":[\x7b\"start\":1,\"end\":1,\"replacement\":\"B\"\x7d]\x7d",
        done_sent := false, suppress_text := true,
        fs := fun p => if p == "d/f.asc" then some "A\n" else none }).1.fs "d/f.asc" =
      some "B\n" := by
  refine ⟨by decide, by decide, by decide⟩

/-! ### C2: classification lock-in -/

/-- textsOf distributes over append. -/
theorem textsOf_append (a b : List StreamEvent) :
    textsOf (a ++ b) = textsOf a ++ textsOf b := by
  unfold textsOf
  exact List.filterMap_append _ _ _

/-- A Text event's content appears in textsOf. -/
theorem mem_textsOf {c : String} {evs : List StreamEvent} (h : StreamEvent.text c ∈ evs) :
    c ∈ textsOf evs := by
  unfold textsOf
  exact List.mem_filterMap.mpr ⟨_, h, rfl⟩

/-- handle_edit_response emits no Text events. -/
theorem handle_edit_response_textsOf (j : Json) (af : Option String) (dir : String) (fs : FS) :
    textsOf (handle_edit_response j af dir fs).2.1 = [] := by
  unfold handle_edit_response
  cases h : (j.getF "edits").asArr with
  | none => rfl
  | some edits =>
    dsimp only
    cases af with
    | none => rfl
    | some filename =>
      dsimp only
      cases ha : apply_edits fs (dir ++ "/" ++ filename) edits with
      | error e => rfl
      | ok p =>
        obtain ⟨r, fs2⟩ := p
        rfl

/-- The message_stop fallback leaves accumulator and suppress flag unchanged and emits
no Text event. -/
theorem stopFallback_fields (af : Option String) (dir : String) (st : St) :
    (stopFallback af dir st).1.accumulated_text = st.accumulated_text ∧
    (stopFallback af dir st).1.suppress_text = st.suppress_text ∧
    textsOf (stopFallback af dir st).2.1 = [] := by
  unfold stopFallback
  cases hf : findSuffix "\x7b\"edits\"" st.accumulated_text with
  | none => exact ⟨rfl, rfl, rfl⟩
  | some cand =>
    dsimp only
    cases hp : parseJson cand with
    | none => exact ⟨rfl, rfl, rfl⟩
    | some j =>
      dsimp only
      cases hh : handle_edit_response j af dir st.fs with
      | mk handled p =>
        obtain ⟨evs, fs2⟩ := p
        cases handled with
        | true =>
          refine ⟨rfl, rfl, ?_⟩
          have hx := handle_edit_response_textsOf j af dir st.fs
          rw [hh] at hx
          exact hx
        | false => exact ⟨rfl, rfl, rfl⟩

/-- The message_stop resolution leaves accumulator and suppress flag unchanged and
emits no Text event. -/
theorem stopResolve_fields (af : Option String) (dir : String) (st : St) :
    (stopResolve af dir st).1.accumulated_text = st.accumulated_text ∧
    (stopResolve af dir st).1.suppress_text = st.suppress_text ∧
    textsOf (stopResolve af dir st).2.1 = [] := by
  unfold stopResolve
  cases hp : parseJson st.accumulated_text with
  | none => exact stopFallback_fields af dir st
  | some j =>
    dsimp only
    cases hh : handle_edit_response j af dir st.fs with
    | mk handled p =>
      obtain ⟨evs, fs2⟩ := p
      cases handled with
      | true =>
        refine ⟨rfl, rfl, ?_⟩
        have hx := handle_edit_response_textsOf j af dir st.fs
        rw [hh] at hx
        exact hx
      | false => exact stopFallback_fields af dir st

/-- The end-of-stream fallback emits no Text event. -/
theorem finalizeFallback_textsOf (af : Option String) (dir : String) (st : St) :
    textsOf (finalizeFallback af dir st).2 = [] := by
  unfold finalizeFallback
  cases hf : findSuffix "\x7b\"edits\"" st.accumulated_text with
  | none => rfl
  | some cand =>
    dsimp only
    cases hp : parseJson cand with
    | none => rfl
    | some j =>
      dsimp only
      cases hh : handle_edit_response j af dir st.fs with
      | mk handled p =>
        obtain ⟨evs, fs2⟩ := p
        cases handled with
        | true =>
          have hx := handle_edit_response_textsOf j af dir st.fs
          rw [hh] at hx
          exact hx
        | false => rfl

/-- The end-of-stream resolution emits no Text event. -/
theorem finalizeRequest_textsOf (af : Option String) (dir : String) (st : St) :
    textsOf (finalizeRequest af dir st).2 = [] := by
  unfold finalizeRequest
  cases hds : st.done_sent with
  | true => rfl
  | false =>
    simp only [Bool.false_eq_true, if_false]
    cases hp : parseJson st.accumulated_text with
    | none => exact finalizeFallback_textsOf af dir st
    | some j =>
      dsimp only
      cases hh : handle_edit_response j af dir st.fs with
      | mk handled p =>
        obtain ⟨evs, fs2⟩ := p
        cases handled with
        | true =>
          have hx := handle_edit_response_textsOf j af dir st.fs
          rw [hh] at hx
          exact hx
        | false => exact finalizeFallback_textsOf af dir st

/-- A string with empty character data is the empty string. -/
theorem str_eq_empty_of_data {a : String} (h : a.data = []) : a = "" := by
  cases a with
  | mk d => exact congrArg String.mk h

/-- An empty concatenation has empty parts. -/
theorem strAppend_eq_empty {a b : String} (h : a ++ b = "") : a = "" ∧ b = "" := by
  have hd : (a ++ b).data = [] := by rw [h]
  rw [String.data_append] at hd
  rcases List.append_eq_nil.mp hd with ⟨ha, hb⟩
  exact ⟨str_eq_empty_of_data ha, str_eq_empty_of_data hb⟩

/-- A non-empty string stays non-empty under right concatenation. -/
theorem strAppend_ne_empty {a : String} (b : String) (h : a ≠ "") : a ++ b ≠ "" :=
  fun hc => h (strAppend_eq_empty hc).1

/-- textDeltas on a cons. -/
theorem textDeltas_cons (l : String) (ls : List String) :
    textDeltas (l :: ls) =
      match deltaOfLine (rustTrimEnd l) with
      | some s => s :: textDeltas ls
      | none => textDeltas ls := by
  unfold textDeltas
  rw [List.filterMap_cons]
  cases deltaOfLine (rustTrimEnd l) <;> rfl

/-- A line without a delta does not change the first non-empty delta. -/
theorem firstNonEmptyDelta_cons_none {l : String} (ls : List String)
    (h : deltaOfLine (rustTrimEnd l) = none) :
    firstNonEmptyDelta (l :: ls) = firstNonEmptyDelta ls := by
  unfold firstNonEmptyDelta
  rw [textDeltas_cons, h]

/-- An empty delta does not change the first non-empty delta. -/
theorem firstNonEmptyDelta_cons_empty {l : String} (ls : List String)
    (h : deltaOfLine (rustTrimEnd l) = some "") :
    firstNonEmptyDelta (l :: ls) = firstNonEmptyDelta ls := by
  unfold firstNonEmptyDelta
  rw [textDeltas_cons, h]
  exact List.find?_cons_of_neg _ (by decide)

/-- A non-empty delta is the first non-empty delta of its stream. -/
theorem firstNonEmptyDelta_cons_some {l : String} (ls : List String) {s : String}
    (h : deltaOfLine (rustTrimEnd l) = some s) (hne : s ≠ "") :
    firstNonEmptyDelta (l :: ls) = some s := by
  unfold firstNonEmptyDelta
  rw [textDeltas_cons, h]
  exact List.find?_cons_of_pos _ (by simpa using hne)

/-- process_line on a line carrying a text delta: classify while the accumulator is
empty, append the delta, forward it unless suppressed, and do not stop. -/
theorem process_line_of_delta {line s : String} (af : Option String) (dir : String) (st : St)
    (hd : deltaOfLine line = some s) :
    process_line line af dir st =
      ({ st with
          accumulated_text := st.accumulated_text ++ s,
          suppress_text :=
            if st.accumulated_text == "" && startsWithChar (rustTrimStart s) '\x7b' then true
            else st.suppress_text },
       if ! (if st.accumulated_text == "" && startsWithChar (rustTrimStart s) '\x7b' then true
             else st.suppress_text)
       then [StreamEvent.text s] else [], false) := by
  unfold deltaOfLine at hd
  unfold process_line
  cases hsp : stripPref "data: " line with
  | none => rw [hsp] at hd; exact Option.noConfusion hd
  | some data =>
    rw [hsp] at hd
    dsimp only at hd ⊢
    by_cases hdn : (data == "[DONE]") = true
    · rw [if_pos hdn] at hd; exact Option.noConfusion hd
    · rw [if_neg hdn] at hd
      rw [if_neg hdn]
      cases hpj : parseJson data with
      | none => rw [hpj] at hd; exact Option.noConfusion hd
      | some parsed =>
        rw [hpj] at hd
        dsimp only at hd ⊢
        by_cases het : (((parsed.getF "type").asStr).getD "" == "content_block_delta") = true
        · rw [if_pos het] at hd
          rw [if_pos het]
          by_cases hth :
              ((((parsed.getF "delta").getF "type").asStr).getD "" == "thinking_delta") = true
          · rw [if_pos hth] at hd; exact Option.noConfusion hd
          · rw [if_neg hth] at hd
            rw [if_neg hth]
            by_cases htx :
                ((((parsed.getF "delta").getF "type").asStr).getD "" == "text_delta") = true
            · rw [if_pos htx] at hd
              rw [if_pos htx, hd]
            · rw [if_neg htx] at hd; exact Option.noConfusion hd
        · rw [if_neg het] at hd; exact Option.noConfusion hd

/-- process_line on a line carrying no text delta: the accumulator and suppress flag
are unchanged and no Text event is emitted. -/
theorem process_line_no_delta {line : String} (af : Option String) (dir : String) (st : St)
    (hd : deltaOfLine line = none) :
    (process_line line af dir st).1.accumulated_text = st.accumulated_text ∧
    (process_line line af dir st).1.suppress_text = st.suppress_text ∧
    textsOf (process_line line af dir st).2.1 = [] := by
  unfold deltaOfLine at hd
  unfold process_line
  cases hsp : stripPref "data: " line with
  | none => exact ⟨rfl, rfl, rfl⟩
  | some data =>
    rw [hsp] at hd
    dsimp only at hd ⊢
    by_cases hdn : (data == "[DONE]") = true
    · rw [if_pos hdn]; exact ⟨rfl, rfl, rfl⟩
    · rw [if_neg hdn] at hd
      rw [if_neg hdn]
      cases hpj : parseJson data with
      | none => exact ⟨rfl, rfl, rfl⟩
      | some parsed =>
        rw [hpj] at hd
        dsimp only at hd ⊢
        by_cases het : (((parsed.getF "type").asStr).getD "" == "content_block_delta") = true
        · rw [if_pos het] at hd
          rw [if_pos het]
          by_cases hth :
              ((((parsed.getF "delta").getF "type").asStr).getD "" == "thinking_delta") = true
          · rw [if_pos hth]
            cases ((parsed.getF "delta").getF "thinking").asStr with
            | none => exact ⟨rfl, rfl, rfl⟩
            | some t => exact ⟨rfl, rfl, rfl⟩
          · rw [if_neg hth] at hd
            rw [if_neg hth]
            by_cases htx :
                ((((parsed.getF "delta").getF "type").asStr).getD "" == "text_delta") = true
            · rw [if_pos htx] at hd
              rw [if_pos htx, hd]
              exact ⟨rfl, rfl, rfl⟩
            · rw [if_neg htx]; exact ⟨rfl, rfl, rfl⟩
        · rw [if_neg het]
          by_cases hms : (((parsed.getF "type").asStr).getD "" == "message_stop") = true
          · rw [if_pos hms]
            exact stopResolve_fields af dir st
          · rw [if_neg hms]
            by_cases her : (((parsed.getF "type").asStr).getD "" == "error") = true
            · rw [if_pos her]; exact ⟨rfl, rfl, rfl⟩
            · rw [if_neg her]; exact ⟨rfl, rfl, rfl⟩

/-- The unprocessed remainder of the loop is no longer than the input. -/
theorem runLines_rem_le (af : Option String) (dir : String) :
    ∀ (lines : List String) (st : St),
      (runLines af dir st lines).2.2.length ≤ lines.length := by
  intro lines
  induction lines with
  | nil => intro st; simp [runLines]
  | cons l ls ih =>
    intro st
    simp only [runLines]
    cases hstop : (process_line (rustTrimEnd l) af dir st).2.2 with
    | true =>
      rw [if_pos rfl]
      simp
    | false =>
      rw [if_neg Bool.false_ne_true]
      dsimp only
      calc (runLines af dir (process_line (rustTrimEnd l) af dir st).1 ls).2.2.length
          ≤ ls.length := ih _
        _ ≤ (l :: ls).length := by simp

/-- Once the suppress flag is set, or while the accumulator is empty and the first
non-empty delta still to come opens with a brace, every Text event the loop emits has
empty content. -/
theorem runLines_suppressed (af : Option String) (dir : String) :
    ∀ (lines : List String) (st : St),
      (st.suppress_text = true ∨
        (st.accumulated_text = "" ∧
          ∀ d, firstNonEmptyDelta lines = some d →
            startsWithChar (rustTrimStart d) '\x7b' = true)) →
      ∀ c, StreamEvent.text c ∈ (runLines af dir st lines).2.1 → c = "" := by
  intro lines
  induction lines with
  | nil =>
    intro st _ c hc
    simp [runLines] at hc
  | cons l ls ih =>
    intro st hinv c hc
    simp only [runLines] at hc
    cases hdel : deltaOfLine (rustTrimEnd l) with
    | none =>
      obtain ⟨ha, hs, ht⟩ := process_line_no_delta af dir st hdel
      cases hstop : (process_line (rustTrimEnd l) af dir st).2.2 with
      | true =>
        rw [hstop, if_pos rfl] at hc
        dsimp only at hc
        exact absurd (mem_textsOf hc) (by rw [ht]; simp)
      | false =>
        rw [hstop, if_neg Bool.false_ne_true] at hc
        dsimp only at hc
        rw [List.mem_append] at hc
        cases hc with
        | inl h1 => exact absurd (mem_textsOf h1) (by rw [ht]; simp)
        | inr h2 =>
          refine ih (process_line (rustTrimEnd l) af dir st).1 ?_ c h2
          cases hinv with
          | inl hsup => exact Or.inl (hs.trans hsup)
          | inr hemp =>
            refine Or.inr ⟨ha.trans hemp.1, ?_⟩
            intro d hd2
            refine hemp.2 d ?_
            rw [firstNonEmptyDelta_cons_none ls hdel]
            exact hd2
    | some s =>
      rw [process_line_of_delta af dir st hdel] at hc
      dsimp only at hc
      rw [if_neg Bool.false_ne_true] at hc
      dsimp only at hc
      rw [List.mem_append] at hc
      cases hinv with
      | inl hsup =>
        have hsup2 : (if st.accumulated_text == "" && startsWithChar (rustTrimStart s) '\x7b'
            then true else st.suppress_text) = true := by
          split
          · rfl
          · exact hsup
        cases hc with
        | inl h1 =>
          rw [hsup2] at h1
          simp at h1
        | inr h2 =>
          exact ih _ (Or.inl hsup2) c h2
      | inr hemp =>
        obtain ⟨hacc, hbr⟩ := hemp
        by_cases hse : s = ""
        · subst hse
          cases hc with
          | inl h1 =>
            cases hb : (!(if st.accumulated_text == "" && startsWithChar (rustTrimStart "") '\x7b'
                then true else st.suppress_text)) with
            | false =>
              rw [hb, if_neg Bool.false_ne_true] at h1
              simp at h1
            | true =>
              rw [hb, if_pos rfl] at h1
              have h3 := List.mem_singleton.mp h1
              injection h3 with h4
          | inr h2 =>
            refine ih _ ?_ c h2
            refine Or.inr ⟨?_, ?_⟩
            · rw [hacc]
              rfl
            · intro d hd2
              refine hbr d ?_
              rw [firstNonEmptyDelta_cons_empty ls hdel]
              exact hd2
        · have hfirst : firstNonEmptyDelta (l :: ls) = some s :=
            firstNonEmptyDelta_cons_some ls hdel hse
          have hbrs := hbr s hfirst
          have hcond : (st.accumulated_text == "" && startsWithChar (rustTrimStart s) '\x7b')
              = true := by
            rw [hacc, hbrs]
            rfl
          have hsup2 : (if st.accumulated_text == "" && startsWithChar (rustTrimStart s) '\x7b'
              then true else st.suppress_text) = true := by
            rw [if_pos hcond]
          cases hc with
          | inl h1 =>
            rw [hsup2] at h1
            simp at h1
          | inr h2 =>
            exact ih _ (Or.inl hsup2) c h2

/-- textDeltas of the empty stream. -/
theorem textDeltas_nil : textDeltas [] = [] := rfl

/-- textDeltas of a cons without a delta. -/
theorem textDeltas_cons_none {l : String} (ls : List String)
    (h : deltaOfLine (rustTrimEnd l) = none) : textDeltas (l :: ls) = textDeltas ls := by
  rw [textDeltas_cons, h]

/-- textDeltas of a cons with a delta. -/
theorem textDeltas_cons_some {l : String} (ls : List String) {s : String}
    (h : deltaOfLine (rustTrimEnd l) = some s) :
    textDeltas (l :: ls) = s :: textDeltas ls := by
  rw [textDeltas_cons, h]

/-- textsOf of a single Text event. -/
theorem textsOf_single_text (s : String) : textsOf [StreamEvent.text s] = [s] := rfl

/-- While nothing has locked suppression — the flag is down and, if the accumulator is
still empty, the first non-empty delta to come does not open with a brace — the loop
never suppresses: its Text events are exactly the text deltas of the lines it
processed (all lines but the returned remainder), in arrival order. -/
theorem runLines_passthrough (af : Option String) (dir : String) :
    ∀ (lines : List String) (st : St),
      st.suppress_text = false →
      (st.accumulated_text = "" →
        ∀ d, firstNonEmptyDelta lines = some d →
          startsWithChar (rustTrimStart d) '\x7b' = false) →
      (runLines af dir st lines).1.suppress_text = false ∧
      textsOf (runLines af dir st lines).2.1 =
        textDeltas (lines.take (lines.length - (runLines af dir st lines).2.2.length)) := by
  intro lines
  induction lines with
  | nil =>
    intro st hsup _
    exact ⟨hsup, rfl⟩
  | cons l ls ih =>
    intro st hsup hbr
    simp only [runLines]
    cases hdel : deltaOfLine (rustTrimEnd l) with
    | none =>
      obtain ⟨ha, hs, ht⟩ := process_line_no_delta af dir st hdel
      cases hstop : (process_line (rustTrimEnd l) af dir st).2.2 with
      | true =>
        rw [if_pos rfl]
        dsimp only
        refine ⟨hs.trans hsup, ?_⟩
        have harith : (l :: ls).length - ls.length = 1 := by simp
        rw [harith, ht]
        rw [show (1 : Nat) = 0 + 1 from rfl, List.take_succ_cons, List.take_zero]
        rw [textDeltas_cons_none [] hdel, textDeltas_nil]
      | false =>
        rw [if_neg Bool.false_ne_true]
        dsimp only
        obtain ⟨ihs, iht⟩ := ih (process_line (rustTrimEnd l) af dir st).1 (hs.trans hsup)
          (fun hacc2 d hd2 => hbr (ha.symm.trans hacc2) d
            (by rw [firstNonEmptyDelta_cons_none ls hdel]; exact hd2))
        refine ⟨ihs, ?_⟩
        rw [textsOf_append, ht, List.nil_append, iht]
        have hle := runLines_rem_le af dir ls (process_line (rustTrimEnd l) af dir st).1
        have harith : (l :: ls).length -
            (runLines af dir (process_line (rustTrimEnd l) af dir st).1 ls).2.2.length =
            (ls.length -
              (runLines af dir (process_line (rustTrimEnd l) af dir st).1 ls).2.2.length) + 1 := by
          simp only [List.length_cons]
          omega
        rw [harith, List.take_succ_cons, textDeltas_cons_none _ hdel]
    | some s =>
      rw [process_line_of_delta af dir st hdel]
      dsimp only
      rw [if_neg Bool.false_ne_true]
      dsimp only
      have hsup2 : (if st.accumulated_text == "" && startsWithChar (rustTrimStart s) '\x7b'
          then true else st.suppress_text) = false := by
        cases hcond : (st.accumulated_text == "" && startsWithChar (rustTrimStart s) '\x7b') with
        | false =>
          rw [if_neg (by simp [hcond])]
          exact hsup
        | true =>
          exfalso
          rw [Bool.and_eq_true] at hcond
          have hacc : st.accumulated_text = "" := beq_iff_eq.mp hcond.1
          by_cases hse : s = ""
          · subst hse
            exact absurd hcond.2 (by decide)
          · have hb := hbr hacc s (firstNonEmptyDelta_cons_some ls hdel hse)
            rw [hb] at hcond
            exact Bool.false_ne_true hcond.2
      rw [hsup2]
      simp only [Bool.not_false, if_true]
      obtain ⟨ihs, iht⟩ := ih
        { st with accumulated_text := st.accumulated_text ++ s, suppress_text := false } rfl
        (fun hacc2 d hd2 => by
          obtain ⟨hae, hsee⟩ := strAppend_eq_empty hacc2
          exact hbr hae d
            (by rw [firstNonEmptyDelta_cons_empty ls (hsee ▸ hdel)]; exact hd2))
      refine ⟨ihs, ?_⟩
      rw [textsOf_append, textsOf_single_text, List.singleton_append, iht]
      have hle := runLines_rem_le af dir ls
        { st with accumulated_text := st.accumulated_text ++ s, suppress_text := false }
      have harith : (l :: ls).length -
          (runLines af dir
            { st with accumulated_text := st.accumulated_text ++ s, suppress_text := false }
            ls).2.2.length =
          (ls.length -
            (runLines af dir
              { st with accumulated_text := st.accumulated_text ++ s, suppress_text := false }
              ls).2.2.length) + 1 := by
        simp only [List.length_cons]
        omega
      rw [harith, List.take_succ_cons, textDeltas_cons_some _ hdel]

/-- C2 (amended): classification happens on the first non-empty text delta and is never
reconsidered.  If that delta's first non-whitespace character is the opening brace,
every Text event of the request has empty content — the only Text events possibly
emitted are empty ones for empty deltas arriving before the lock.  Otherwise nothing is
ever suppressed: the Text events of the request are exactly the text deltas of the
lines the decoder processed, forwarded in arrival order. -/
theorem c2_classification (lines : List String) (af : Option String) (dir : String)
    (fs : FS) (d : String) (h : firstNonEmptyDelta lines = some d) :
    (startsWithChar (rustTrimStart d) '\x7b' = true →
      ∀ c, StreamEvent.text c ∈ (runRequest lines af dir fs).2.1 → c = "") ∧
    (startsWithChar (rustTrimStart d) '\x7b' = false →
      textsOf (runRequest lines af dir fs).2.1 =
        textDeltas (lines.take (lines.length - (runRequest lines af dir fs).2.2.length))) := by
  constructor
  · intro hbr c hc
    unfold runRequest at hc
    dsimp only at hc
    rw [List.mem_append] at hc
    cases hc with
    | inl h1 =>
      refine runLines_suppressed af dir lines _ (Or.inr ⟨rfl, ?_⟩) c h1
      intro d2 hd2
      rw [h] at hd2
      injection hd2 with hd3
      rw [← hd3]
      exact hbr
    | inr h2 =>
      exact absurd (mem_textsOf h2) (by rw [finalizeRequest_textsOf]; simp)
  · intro hbr
    unfold runRequest
    dsimp only
    rw [textsOf_append, finalizeRequest_textsOf, List.append_nil]
    refine (runLines_passthrough af dir lines _ rfl ?_).2
    intro _ d2 hd2
    rw [h] at hd2
    injection hd2 with hd3
    rw [← hd3]
    exact hbr

/-- C2 counterexample: an empty first delta is forwarded as an empty Text event even
though the first non-empty delta of the request opens with a brace, so "no Text
outbound event is emitted" fails as stated. -/
theorem c2_classification_cex :
    firstNonEmptyDelta
      ["data: \x7b\"type\":\"content_block_delta\",\"delta\":\x7b\"type\":\"text_delta\",\"text\":\"\"\x7d\x7d",
       "data: \x7b\"type\":\"content_block_delta\",\"delta\":\x7b\"type\":\"text_delta\",\"text\":\"\x7b\"\x7d\x7d"]
      = some "\x7b" ∧
    startsWithChar (rustTrimStart "\x7b") '\x7b' = true ∧
    StreamEvent.text "" ∈
      (runRequest
        ["data: \x7b\"type\":\"content_block_delta\",\"delta\":\x7b\"type\":\"text_delta\",\"text\":\"\"\x7d\x7d",
         "data: \x7b\"type\":\"content_block_delta\",\"delta\":\x7b\"type\":\"text_delta\",\"text\":\"\x7b\"\x7d\x7d"]
        none "d" (fun _ => none)).2.1 := by
  refine ⟨by decide, by decide, by decide⟩

/-- Witness for C2 (amended): on a request whose single delta is the brace, no Text
event with non-empty content appears. -/
theorem c2_classification_witness :
    StreamEvent.text "\x7b" ∉
      (runRequest
        ["data: \x7b\"type\":\"content_block_delta\",\"delta\":\x7b\"type\":\"text_delta\",\"text\":\"\x7b\"\x7d\x7d"]
        none "d" (fun _ => none)).2.1 := by
  intro hmem
  have h := (c2_classification
    ["data: \x7b\"type\":\"content_block_delta\",\"delta\":\x7b\"type\":\"text_delta\",\"text\":\"\x7b\"\x7d\x7d"]
    none "d" (fun _ => none) "\x7b" (by decide)).1 (by decide) "\x7b" hmem
  exact absurd h (by decide)

/-! ### C9: the document source adapter's decoding -/

/-- String.mk is inverse to String.data. -/
theorem string_mk_data (s : String) : String.mk s.data = s := rfl

/-- Decoding one encoded scalar value consumes exactly its bytes. -/
theorem utf8DecodeStrict_encodeChar (c : Char) (rest : List Nat) :
    utf8DecodeStrict (utf8EncodeChar c ++ rest) = (utf8DecodeStrict rest).map (c :: ·) := by
  have hv : c.toNat < 0xD800 ∨ (0xDFFF < c.toNat ∧ c.toNat < 0x110000) := c.valid
  unfold utf8EncodeChar
  dsimp only
  by_cases h1 : c.toNat < 0x80
  · rw [if_pos h1, List.singleton_append, utf8DecodeStrict.eq_def]
    dsimp only
    rw [if_pos h1, Char.ofNat_toNat]
  · rw [if_neg h1]
    by_cases h2 : c.toNat < 0x800
    · rw [if_pos h2]
      simp only [List.cons_append, List.nil_append]
      rw [utf8DecodeStrict.eq_def]
      dsimp only
      rw [if_neg (by omega), if_neg (by omega), if_pos (by omega),
        if_pos (by simp only [isCont, decide_eq_true_eq]; omega)]
      have e5 : (0xC0 + c.toNat / 64 - 0xC0) * 64 + (0x80 + c.toNat % 64 - 0x80) = c.toNat := by
        omega
      rw [e5, Char.ofNat_toNat]
    · rw [if_neg h2]
      by_cases h3 : c.toNat < 0x10000
      · rw [if_pos h3]
        simp only [List.cons_append, List.nil_append]
        rw [utf8DecodeStrict.eq_def]
        dsimp only
        rw [if_neg (by omega), if_neg (by omega), if_neg (by omega), if_pos (by omega)]
        have econd : ((if (0xE0 + c.toNat / 4096) = 0xE0 then
              decide (0xA0 ≤ 0x80 + c.toNat / 64 % 64 ∧ 0x80 + c.toNat / 64 % 64 < 0xC0)
            else if (0xE0 + c.toNat / 4096) = 0xED then
              decide (0x80 ≤ 0x80 + c.toNat / 64 % 64 ∧ 0x80 + c.toNat / 64 % 64 < 0xA0)
            else isCont (0x80 + c.toNat / 64 % 64)) && isCont (0x80 + c.toNat % 64)) = true := by
          rw [Bool.and_eq_true]
          refine ⟨?_, by simp only [isCont, decide_eq_true_eq]; omega⟩
          split
          · rw [decide_eq_true_eq]
            omega
          · split
            · rw [decide_eq_true_eq]
              omega
            · simp only [isCont, decide_eq_true_eq]
              omega
        rw [if_pos econd]
        have e6 : (0xE0 + c.toNat / 4096 - 0xE0) * 4096 + (0x80 + c.toNat / 64 % 64 - 0x80) * 64 +
            (0x80 + c.toNat % 64 - 0x80) = c.toNat := by omega
        rw [e6, Char.ofNat_toNat]
      · rw [if_neg h3]
        have h4 : c.toNat < 0x110000 := by rcases hv with h | h <;> omega
        simp only [List.cons_append, List.nil_append]
        rw [utf8DecodeStrict.eq_def]
        dsimp only
        rw [if_neg (by omega), if_neg (by omega), if_neg (by omega), if_neg (by omega),
          if_pos (by omega)]
        have econd : ((if (0xF0 + c.toNat / 0x40000) = 0xF0 then
              decide (0x90 ≤ 0x80 + c.toNat / 4096 % 64 ∧ 0x80 + c.toNat / 4096 % 64 < 0xC0)
            else if (0xF0 + c.toNat / 0x40000) = 0xF4 then
              decide (0x80 ≤ 0x80 + c.toNat / 4096 % 64 ∧ 0x80 + c.toNat / 4096 % 64 < 0x90)
            else isCont (0x80 + c.toNat / 4096 % 64)) && isCont (0x80 + c.toNat / 64 % 64) &&
            isCont (0x80 + c.toNat % 64)) = true := by
          rw [Bool.and_eq_true, Bool.and_eq_true]
          refine ⟨⟨?_, by simp only [isCont, decide_eq_true_eq]; omega⟩,
            by simp only [isCont, decide_eq_true_eq]; omega⟩
          split
          · rw [decide_eq_true_eq]
            omega
          · split
            · rw [decide_eq_true_eq]
              omega
            · simp only [isCont, decide_eq_true_eq]
              omega
        rw [if_pos econd]
        have e7 : (0xF0 + c.toNat / 0x40000 - 0xF0) * 0x40000 +
            (0x80 + c.toNat / 4096 % 64 - 0x80) * 4096 +
            (0x80 + c.toNat / 64 % 64 - 0x80) * 64 + (0x80 + c.toNat % 64 - 0x80) = c.toNat := by
          omega
        rw [e7, Char.ofNat_toNat]

/-- Strict decoding inverts UTF-8 encoding. -/
theorem utf8DecodeStrict_encode (cs : List Char) :
    utf8DecodeStrict (List.flatten (cs.map utf8EncodeChar)) = some cs := by
  induction cs with
  | nil =>
    simp only [List.map_nil, List.flatten_nil]
    rw [utf8DecodeStrict.eq_def]
  | cons c cs ih =>
    simp only [List.map_cons, List.flatten_cons]
    rw [utf8DecodeStrict_encodeChar, ih]
    rfl

/-- A byte 0xFF can begin no UTF-8 sequence, so strict decoding fails on any
BOM-marked content. -/
theorem utf8DecodeStrict_ff (rest : List Nat) : utf8DecodeStrict (0xFF :: rest) = none := by
  rw [utf8DecodeStrict.eq_def]
  dsimp only
  rw [if_neg (by omega), if_neg (by omega), if_neg (by omega), if_neg (by omega),
    if_neg (by omega)]

set_option maxRecDepth 4096 in
/-- Every UTF-16 code unit produced by the encoder fits in sixteen bits. -/
theorem utf16EncodeChar_lt (c : Char) : ∀ u ∈ utf16EncodeChar c, u < 0x10000 := by
  have hv : c.toNat < 0xD800 ∨ (0xDFFF < c.toNat ∧ c.toNat < 0x110000) := c.valid
  unfold utf16EncodeChar
  dsimp only
  by_cases h1 : c.toNat < 0x10000
  · rw [if_pos h1]
    intro u hu
    rw [List.mem_singleton] at hu
    omega
  · rw [if_neg h1]
    intro u hu
    have h4 : c.toNat < 0x110000 := by rcases hv with h | h <;> omega
    rw [List.mem_cons, List.mem_singleton] at hu
    rcases hu with h | h <;> omega

/-- Every code unit of a serialized string fits in sixteen bits. -/
theorem utf16units_lt (s : String) :
    ∀ u ∈ List.flatten (s.data.map utf16EncodeChar), u < 0x10000 := by
  intro u hu
  rw [List.mem_flatten] at hu
  obtain ⟨l, hl, hul⟩ := hu
  rw [List.mem_map] at hl
  obtain ⟨c, _, hcl⟩ := hl
  exact utf16EncodeChar_lt c u (hcl ▸ hul)

/-- Chunk reassembly inverts little-endian serialization of sixteen-bit units. -/
theorem leChunks_flatMap (us : List Nat) (h : ∀ u ∈ us, u < 0x10000) :
    leChunks (us.flatMap (fun u => [u % 256, u / 256])) = us := by
  induction us with
  | nil => rfl
  | cons u rest ih =>
    have hu := h u (List.mem_cons_self _ _)
    have hstep : leChunks ((u :: rest).flatMap (fun v => [v % 256, v / 256])) =
        (u % 256 + 256 * (u / 256)) :: leChunks (rest.flatMap (fun v => [v % 256, v / 256])) := rfl
    rw [hstep, ih (fun v hv2 => h v (List.mem_cons_of_mem _ hv2))]
    have he : u % 256 + 256 * (u / 256) = u := by omega
    rw [he]

/-- Lossy UTF-16 decoding of one encoded scalar value consumes exactly its units. -/
theorem utf16Lossy_encodeChar (c : Char) (rest : List Nat) :
    utf16Lossy (utf16EncodeChar c ++ rest) = c :: utf16Lossy rest := by
  have hv : c.toNat < 0xD800 ∨ (0xDFFF < c.toNat ∧ c.toNat < 0x110000) := c.valid
  unfold utf16EncodeChar
  dsimp only
  by_cases h1 : c.toNat < 0x10000
  · rw [if_pos h1, List.singleton_append, utf16Lossy.eq_def]
    dsimp only
    rw [if_pos (by rcases hv with h | h; exact Or.inl h; exact Or.inr (by omega)),
      Char.ofNat_toNat]
  · rw [if_neg h1]
    have h4 : c.toNat < 0x110000 := by rcases hv with h | h <;> omega
    simp only [List.cons_append, List.nil_append]
    rw [utf16Lossy.eq_def]
    dsimp only
    rw [if_neg (by omega), if_pos (by omega), if_pos (by constructor <;> omega)]
    have hval : 0x10000 + (0xD800 + (c.toNat - 0x10000) / 0x400 - 0xD800) * 0x400 +
        (0xDC00 + (c.toNat - 0x10000) % 0x400 - 0xDC00) = c.toNat := by omega
    rw [hval, Char.ofNat_toNat]

/-- Lossy UTF-16 decoding inverts encoding. -/
theorem utf16Lossy_encode (cs : List Char) :
    utf16Lossy (List.flatten (cs.map utf16EncodeChar)) = cs := by
  induction cs with
  | nil =>
    simp only [List.map_nil, List.flatten_nil]
    rw [utf16Lossy.eq_def]
  | cons c rest ih =>
    simp only [List.map_cons, List.flatten_cons]
    rw [utf16Lossy_encodeChar, ih]

/-- C9: for bytes that are not valid UTF-8, the adapter decodes BOM-marked content as
UTF-16LE with lossy substitution and anything else with lossy UTF-8 (the decoder is a
total function, so decoding never fails); in particular a 0xFF 0xFE marker followed by
the UTF-16LE serialization of a text decodes to the same logical text as the plain
UTF-8 encoding of that text without a marker. -/
theorem c9_encoding_adapter (bytes : List Nat) (s : String) :
    (utf8DecodeStrict bytes = none →
      read_asc_decode bytes =
        (match bytes with
         | 0xFF :: 0xFE :: rest => String.mk (utf16Lossy (leChunks rest))
         | _ => String.mk (utf8Lossy bytes))) ∧
    read_asc_decode (0xFF :: 0xFE :: utf16leBytes s) = s ∧
    read_asc_decode (utf8Encode s) = s := by
  refine ⟨?_, ?_, ?_⟩
  · intro h
    unfold read_asc_decode
    rw [h]
  · unfold read_asc_decode
    rw [utf8DecodeStrict_ff]
    dsimp only
    unfold utf16leBytes
    rw [leChunks_flatMap _ (utf16units_lt s), utf16Lossy_encode]
  · unfold read_asc_decode utf8Encode
    rw [utf8DecodeStrict_encode]

/-- Witness for C9 at the bytes [0xFF] (invalid UTF-8, no marker) and the text
"Version 4". -/
theorem c9_encoding_adapter_witness :
    utf8DecodeStrict [0xFF] = none ∧
    read_asc_decode [0xFF] = String.mk (utf8Lossy [0xFF]) ∧
    read_asc_decode (0xFF :: 0xFE :: utf16leBytes "Version 4") = "Version 4" ∧
    read_asc_decode (utf8Encode "Version 4") = "Version 4" :=
  ⟨utf8DecodeStrict_ff [], (c9_encoding_adapter [0xFF] "Version 4").1 (utf8DecodeStrict_ff []),
   (c9_encoding_adapter [0xFF] "Version 4").2.1,
   (c9_encoding_adapter [0xFF] "Version 4").2.2⟩

end Spicy
